import Mathlib

/-!
# Verification of the apk-file search pipeline

Shallow embedding of `cmd/apk-file/main.go`: the pattern splitter
(`getFileAndPath`, built on Go's `path.Base` / `path.Dir` / `path.Clean`
and `strings.TrimPrefix`), the query-string construction
(`url.Values.Encode` with `url.QueryEscape`), the flag validation
(`p.Before`), the HTML result extraction (`getFilesInfo`), the export
dispatch (`tabularResults`), and the stdin handling (`readStdin`).
Strings are modelled as Lean `String`; the Go byte-level operations all
act on ASCII delimiters, where `List Char` traversal of `String.data`
coincides with Go's byte traversal, except for percent-encoding which is
done on explicit UTF-8 bytes.
-/

namespace ApkFile

/-! ## Go `strings` helpers -/

/-- Go `strings.TrimPrefix(s, pre)`: drop `pre` from the front of `s`
when it is a prefix, otherwise return `s` unchanged. -/
def goTrimPrefixChars (s pre : List Char) : List Char :=
  if pre.isPrefixOf s then s.drop pre.length else s

/-- Go `strings.TrimPrefix` on `String`. -/
def goTrimPrefix (s pre : String) : String :=
  ⟨goTrimPrefixChars s.data pre.data⟩

/-- Go `strings.TrimSuffix(s, suf)`: drop `suf` from the end of `s`
when it is a suffix, otherwise return `s` unchanged. -/
def goTrimSuffixChars (s suf : List Char) : List Char :=
  if suf.isSuffixOf s then s.take (s.length - suf.length) else s

/-- Go `strings.TrimSuffix` on `String`. -/
def goTrimSuffix (s suf : String) : String :=
  ⟨goTrimSuffixChars s.data suf.data⟩

/-! ## Go `path.Clean`, `path.Base`, `path.Dir`

Translated from the Go standard library `path` package, which
`getFileAndPath` calls.  `path.Clean` uses a `lazybuf` with a write
cursor `w`; we keep the output buffer reversed (`accR`, most recent
character first), so `out.append c` is `c :: accR` and truncating `w`
is dropping from the front of `accR`. -/

/-- The `..`-backtracking loop of `path.Clean`:
`out.w--; for out.w > dotdot && out.index(out.w) != '/' { out.w-- }`.
Each call removes the front character `c` of the reversed buffer; the
loop continues while the buffer is still longer than `dotdot` and the
character just removed is not `'/'`. -/
def cleanBacktrack (dotdot : Nat) : List Char → List Char
  | [] => []
  | c :: rest =>
    if decide (dotdot < rest.length) && !(c == '/') then cleanBacktrack dotdot rest
    else rest

/-- Main loop of Go `path.Clean` over the remaining input characters.
`accR` is the output buffer reversed, `dotdot` the barrier below which
`..` may not erase.  The Go loop advances the read index `r` by at
least one per iteration; `fuel` bounds the number of iterations (it is
initialised to the input length, which the loop can never exceed), so
the recursion is structural and the function evaluates by reduction. -/
def cleanLoop (rooted : Bool) : Nat → List Char → List Char → Nat → List Char
  | 0, _, accR, _ => accR
  | _ + 1, [], accR, _ => accR
  | fuel + 1, c :: rest, accR, dotdot =>
    if c = '/' then
      -- empty path element
      cleanLoop rooted fuel rest accR dotdot
    else if c = '.' && (rest.isEmpty || rest.head? == some '/') then
      -- `.` element
      cleanLoop rooted fuel rest accR dotdot
    else if c = '.' && rest.head? == some '.' &&
        (rest.tail.isEmpty || rest.tail.head? == some '/') then
      -- `..` element
      if dotdot < accR.length then
        cleanLoop rooted fuel rest.tail (cleanBacktrack dotdot accR) dotdot
      else if !rooted then
        let accR' := '.' :: '.' :: (if accR.length > 0 then '/' :: accR else accR)
        cleanLoop rooted fuel rest.tail accR' accR'.length
      else
        cleanLoop rooted fuel rest.tail accR dotdot
    else
      -- real path element: add slash if needed, then copy the element
      let sep : List Char :=
        if (rooted && accR.length != 1) || (!rooted && accR.length != 0) then ['/'] else []
      let comp := (c :: rest).takeWhile (fun x => x ≠ '/')
      let rest' := (c :: rest).dropWhile (fun x => x ≠ '/')
      cleanLoop rooted fuel rest' (comp.reverse ++ sep ++ accR) dotdot

/-- Go `path.Clean` on a character list. -/
def cleanChars (p : List Char) : List Char :=
  match p with
  | [] => ['.']
  | c :: rest =>
    let rooted := c = '/'
    let out :=
      if rooted then cleanLoop true p.length rest ['/'] 1
      else cleanLoop false p.length (c :: rest) [] 0
    if out.length = 0 then ['.'] else out.reverse

/-- Go `path.Clean`. -/
def pathClean (s : String) : String := ⟨cleanChars s.data⟩

/-- Strip trailing slashes, as the first loop of Go `path.Base` does. -/
def stripTrailingSlashes (p : List Char) : List Char :=
  ((p.reverse.dropWhile (fun c => c = '/'))).reverse

/-- Go `path.Base` on a character list: empty input gives `"."`;
otherwise strip trailing slashes, keep everything after the last `'/'`,
and if nothing remains the input was all slashes, giving `"/"`. -/
def baseChars (p : List Char) : List Char :=
  match p with
  | [] => ['.']
  | _ =>
    let p1 := stripTrailingSlashes p
    let p2 := (p1.reverse.takeWhile (fun c => c ≠ '/')).reverse
    if p2.isEmpty then ['/'] else p2

/-- Go `path.Base`. -/
def pathBase (s : String) : String := ⟨baseChars s.data⟩

/-- The `dir` part of Go `path.Split`: everything up to and including
the final `'/'` (empty when there is no slash). -/
def dirPartChars (p : List Char) : List Char :=
  (p.reverse.dropWhile (fun c => c ≠ '/')).reverse

/-- Go `path.Dir`: `Clean` of the `Split` directory part. -/
def pathDir (s : String) : String := ⟨cleanChars (dirPartChars s.data)⟩

/-! ## The pattern splitter `getFileAndPath` -/

/-- `getFileAndPath` from `main.go`:

    file = "*" + path.Base(arg) + "*"
    dir = path.Dir(arg)
    if dir != "" && dir != "." { dir = "*" + dir; file = strings.TrimPrefix(file, "*") }
    else { dir = "" }
    return file, dir
-/
def getFileAndPath (arg : String) : String × String :=
  let file := "*" ++ pathBase arg ++ "*"
  let dir := pathDir arg
  if dir ≠ "" ∧ dir ≠ "." then (goTrimPrefix file "*", "*" ++ dir)
  else (file, "")

example : getFileAndPath "lib/foo" = ("foo*", "*lib") := by decide

example : getFileAndPath "" = ("*.*", "") := by decide

example : getFileAndPath "foo" = ("*foo*", "") := by decide

/-! ## Go `net/url`: `QueryEscape` and `Values.Encode`

The program builds `url.Values{"file": {f}, "path": {p}, "branch":
{branch}, "repo": {repo}, "arch": {arch}}` and calls `Encode()`.
Go strings are UTF-8 byte sequences and `QueryEscape` works byte by
byte, so we first expand a Lean `String` into its UTF-8 bytes
(as `Nat`s below 256). -/

/-- UTF-8 encoding of one code point, as the Go runtime stores it. -/
def utf8Bytes (c : Char) : List Nat :=
  let n := c.toNat
  if n < 0x80 then [n]
  else if n < 0x800 then
    [0xC0 + n / 0x40, 0x80 + n % 0x40]
  else if n < 0x10000 then
    [0xE0 + n / 0x1000, 0x80 + n / 0x40 % 0x40, 0x80 + n % 0x40]
  else
    [0xF0 + n / 0x40000, 0x80 + n / 0x1000 % 0x40, 0x80 + n / 0x40 % 0x40, 0x80 + n % 0x40]

/-- The UTF-8 bytes of a string, i.e. Go's byte-level view of it. -/
def strBytes (s : String) : List Nat := s.data.flatMap utf8Bytes

/-- Go `url.shouldEscape(c, encodeQueryComponent)`: everything is
escaped except ASCII alphanumerics and `-`, `_`, `.`, `~`. -/
def shouldEscapeQuery (n : Nat) : Bool :=
  !((0x61 ≤ n && n ≤ 0x7A) || (0x41 ≤ n && n ≤ 0x5A) || (0x30 ≤ n && n ≤ 0x39) ||
    n == 0x2D || n == 0x5F || n == 0x2E || n == 0x7E)

/-- Upper-case hexadecimal digit, Go's `upperhex` table. -/
def upperHexDigit (n : Nat) : Char :=
  if n < 10 then Char.ofNat (0x30 + n) else Char.ofNat (0x41 + (n - 10))

/-- Escape one byte as `url.QueryEscape` does: unescaped bytes are
copied, a space becomes `'+'`, every other escaped byte becomes
`%XX` with upper-case hex. -/
def escapeQueryByte (n : Nat) : List Char :=
  if !shouldEscapeQuery n then [Char.ofNat n]
  else if n = 0x20 then ['+']
  else ['%', upperHexDigit (n / 16), upperHexDigit (n % 16)]

/-- Go `url.QueryEscape`. -/
def queryEscape (s : String) : String :=
  ⟨(strBytes s).flatMap escapeQueryByte⟩

example : queryEscape "x86_64" = "x86_64" := by decide
example : queryEscape "a b&c" = "a+b%26c" := by decide

/-- Byte-lexicographic `<` on strings, the order `sort.Strings` uses. -/
def bytesLt : List Nat → List Nat → Bool
  | [], [] => false
  | [], _ :: _ => true
  | _ :: _, [] => false
  | a :: as, b :: bs => if a < b then true else if b < a then false else bytesLt as bs

/-- `≤` on the keys of a `url.Values`, from Go's byte-wise string order. -/
def keyLe (a b : String) : Bool := !bytesLt (strBytes b) (strBytes a)

/-- Insert into a sorted list (helper for the key sort in `Encode`). -/
def insertSorted (le : α → α → Bool) (x : α) : List α → List α
  | [] => [x]
  | y :: ys => if le x y then x :: y :: ys else y :: insertSorted le x ys

/-- Sort a list; `Values.Encode` sorts the map keys this way. -/
def sortByLe (le : α → α → Bool) : List α → List α
  | [] => []
  | x :: xs => insertSorted le x (sortByLe le xs)

/-- Go `url.Values.Encode()`: a `Values` is a map from key to list of
values (modelled as an association list with distinct keys); `Encode`
visits the keys in sorted order and emits
`QueryEscape(key) + "=" + QueryEscape(value)` for each value, joined
by `'&'`. -/
def valuesEncode (vs : List (String × List String)) : String :=
  String.intercalate "&"
    ((sortByLe (fun a b => keyLe a.1 b.1) vs).flatMap fun kv =>
      kv.2.map fun v => queryEscape kv.1 ++ "=" ++ queryEscape v)

/-- The `url.Values` literal built in `p.Action` (a Go map literal;
`Encode` ignores the textual order). -/
def searchQuery (f p branch repo arch : String) : List (String × List String) :=
  [("file", [f]), ("path", [p]), ("branch", [branch]), ("repo", [repo]), ("arch", [arch])]

/-- Base endpoint `alpineContentsSearchURI`. -/
def alpineContentsSearchURI : String := "https://pkgs.alpinelinux.org/contents"

/-- The request URI formed in `p.Action`:
`fmt.Sprintf("%s?%s", alpineContentsSearchURI, query.Encode())`. -/
def requestURI (f p branch repo arch : String) : String :=
  alpineContentsSearchURI ++ "?" ++ valuesEncode (searchQuery f p branch repo arch)

example :
    valuesEncode (searchQuery "a" "b" "edge" "main" "x86") =
      "arch=x86&branch=edge&file=a&path=b&repo=main" := by decide

/-! ## Flag validation (`p.Before`) -/

def validWildcards : List String := ["*", "?"]

def validFilterTypes : List String := ["file", "path", "package"]

def validOutputTypes : List String := ["stdout", "file"]

def validOutputFormats : List String :=
  ["markdown", "csv", "yaml", "json", "xlsx", "xml", "tsv", "mysql", "postgres", "html", "ascii"]

def validArches : List String := ["x86", "x86_64", "armhf", "aarch64", "ppc64le", "s390x"]

def validRepos : List String := ["main", "community", "testing"]

def validBranches : List String := ["edge", "v3.8", "v3.7", "v3.6", "v3.5", "v3.4", "v3.3"]

/-- `stringInSlice` from `main.go`. -/
def stringInSlice (a : String) (list : List String) : Bool :=
  list.any fun b => b == a

/-- `strings.Join(l, ", ")`, as used in the `p.Before` error messages. -/
def joinComma (l : List String) : String := String.intercalate ", " l

/-- `p.Before` from `main.go`: each enum-constrained flag is checked in
order (wildcard, filter, branch, arch, repo); a non-empty value outside
its list aborts with the `fmt.Errorf` message built there, which puts
the offending value first (`%s`) and appends the joined allowed set. -/
def beforeCheck (wildcard filterType branch arch repo : String) : Except String Unit :=
  if wildcard ≠ "" ∧ stringInSlice wildcard validWildcards = false then
    .error (wildcard ++ " is not a valid pattern type allowed: " ++ joinComma validWildcards)
  else if filterType ≠ "" ∧ stringInSlice filterType validFilterTypes = false then
    .error (filterType ++ " is not a valid pattern type allowed: " ++ joinComma validFilterTypes)
  else if branch ≠ "" ∧ stringInSlice branch validBranches = false then
    .error (branch ++ " is not a valid version, allowed: " ++ joinComma validBranches)
  else if arch ≠ "" ∧ stringInSlice arch validArches = false then
    .error (arch ++ " is not a valid arch, allowed: " ++ joinComma validArches)
  else if repo ≠ "" ∧ stringInSlice repo validRepos = false then
    .error (repo ++ " is not a valid repo, allowed: " ++ joinComma validRepos)
  else .ok ()

/-! ## Result extraction (`getFilesInfo`) -/

/-- `fileInfo` from `main.go`. -/
structure fileInfo where
  path : String
  pkg : String
  branch : String
  repo : String
  arch : String
deriving DecidableEq, Repr

/-- One `<tr>` of the result table: its `<td>` texts in order. -/
structure HtmlRow where
  cells : List String
deriving DecidableEq

/-- The result document, reduced to what the goquery selector
`.pure-table tr:not(:first-child)` traverses: the `<tr>` elements of
the `pure-table`, as sibling rows in document order (the selector then
excludes exactly the first one). -/
structure HtmlDoc where
  rows : List HtmlRow
deriving DecidableEq

/-- One step of the `rows.Each` switch in `getFilesInfo`: cell `i`
is written into the positional field, indices past 4 fall through to
the `default:` arm (a non-fatal `logrus.Warn`) and change nothing. -/
def applyCell (f : fileInfo) (i : Nat) (s : String) : fileInfo :=
  match i with
  | 0 => { f with path := s }
  | 1 => { f with pkg := s }
  | 2 => { f with branch := s }
  | 3 => { f with repo := s }
  | 4 => { f with arch := s }
  | _ => f

/-- The record built from one row: start from the zero-value
`fileInfo{}` (all fields empty) and apply each cell at its index. -/
def rowToFileInfo (cells : List String) : fileInfo :=
  cells.enum.foldl (fun f p => applyCell f p.1 p.2) ⟨"", "", "", "", ""⟩

/-- The diagnostics of the `default:` arm: one warning per cell whose
index exceeds 4, naming the column index and the cell value. -/
def rowWarnings (cells : List String) : List (Nat × String) :=
  cells.enum.filter fun p => decide (5 ≤ p.1)

/-- `getFilesInfo` from `main.go`: visit every row matched by
`.pure-table tr:not(:first-child)` (all but the first), and turn each
into a `fileInfo`. -/
def getFilesInfo (d : HtmlDoc) : List fileInfo :=
  (d.rows.drop 1).map fun r => rowToFileInfo r.cells

/-- The field of a `fileInfo` at a cell position, in the positional
order of the `switch` (0 path, 1 pkg, 2 branch, 3 repo, 4 arch);
used to state properties uniformly over the five fields. -/
def fileInfoField (f : fileInfo) : Nat → String
  | 0 => f.path
  | 1 => f.pkg
  | 2 => f.branch
  | 3 => f.repo
  | 4 => f.arch
  | _ => ""

/-! ## Export dispatch (`tabularResults`) -/

/-- Which `tablib` exporter a format string selects.  The exporters
themselves live in the external `go-tablib` dependency; the switch in
`tabularResults` only chooses among them, so we record the choice. -/
inductive ExportChoice where
  | csvE
  | tsvE
  | yamlE
  | jsonE
  | xlsxE
  | xmlE
  | mysqlE (table : String)
  | postgresE (table : String)
  | nilE
  | gridE
deriving DecidableEq, Repr

/-- The `switch outputFormat` of `tabularResults`, case for case:
`"html"` runs `ds.XLSX()`, `"ascii"` has an empty body (so `result`
stays nil), and everything else — `"markdown"` included — reaches
`default:`, which renders `ds.Tabular("grid")`.  No case produces an
error value. -/
def tabularDispatch (outputFormat outputBasename : String) : ExportChoice :=
  match outputFormat with
  | "csv" => .csvE
  | "tsv" => .tsvE
  | "yaml" => .yamlE
  | "json" => .jsonE
  | "xlsx" => .xlsxE
  | "xml" => .xmlE
  | "mysql" => .mysqlE outputBasename
  | "postgres" => .postgresE outputBasename
  | "html" => .xlsxE
  | "ascii" => .nilE
  | _ => .gridE

/-- The case labels of the `switch` in `tabularResults`. -/
def tabularCaseLabels : List String :=
  ["csv", "tsv", "yaml", "json", "xlsx", "xml", "mysql", "postgres", "html", "ascii"]

/-! ## stdin handling (`readStdin`, input selection in `p.Action`) -/

/-- `readStdin` from `main.go`: `ioutil.ReadAll(os.Stdin)` is the one
fallible step, modelled as an `Except` argument; on failure the
function returns `err.Error()` — the error's message text — as its
result string instead of propagating the error. -/
def readStdin (readAllResult : Except String String) : String :=
  match readAllResult with
  | .error err => err
  | .ok input => input

/-- The input-selection block at the top of `p.Action`: in stdin mode
a positive `checkStdin` leads to `readStdin` plus a trailing-newline
trim, a negative one is an error; otherwise the first positional
argument is required. -/
def computeInput (stdinMode : Bool) (checkStdinOk : Bool) (checkStdinErr : String)
    (readAllResult : Except String String) (args : List String) : Except String String :=
  if stdinMode then
    if checkStdinOk then .ok (goTrimSuffix (readStdin readAllResult) "\n")
    else .error ("stdin is invalid, msg: " ++ checkStdinErr)
  else
    match args with
    | [] => .error "must pass a file to search for"
    | a :: _ => .ok a

/-! ## The pipeline of one invocation

`p.Before` runs before `p.Action`; inside `p.Action` the query is
built and the single fetch happens, then extraction.  The fetch is the
I/O boundary and is passed in as a function, so theorems can quantify
over it. -/

def programRun (wildcard filterType branch arch repo : String)
    (input : String) (fetch : String → Except String HtmlDoc) :
    Except String (List fileInfo) :=
  match beforeCheck wildcard filterType branch arch repo with
  | .error e => .error e
  | .ok _ =>
    let fullInput := input ++ wildcard
    let fp := getFileAndPath fullInput
    let uri := requestURI fp.1 fp.2 branch repo arch
    match fetch uri with
    | .error e => .error e
    | .ok doc => .ok (getFilesInfo doc)

/-! ## Separated-values export and re-parse (csv / tsv)

Modelled from the spec: the csv/tsv serializers live in the external
`go-tablib` dependency, not in this repository; the spec fixes their
lexical rules — "comma or tab separated, fields containing the
separator or quote characters are quoted".  A field is emitted raw
unless it contains the separator, a quote, or a line break, in which
case it is wrapped in double quotes with inner quotes doubled; each
record ends with a newline.  The parser below reads that dialect
back. -/

/-- Does a field need quoting under separator `sep`? -/
def svNeedsQuote (sep : Char) (f : List Char) : Bool :=
  f.any fun c => c == sep || c == '"' || c == '\n' || c == '\r'

/-- Double every quote of a quoted field's content. -/
def svEscapeChars (l : List Char) : List Char :=
  l.flatMap fun c => if c = '"' then ['"', '"'] else [c]

/-- Encode one field. -/
def svEncodeFieldChars (sep : Char) (f : List Char) : List Char :=
  if svNeedsQuote sep f then '"' :: (svEscapeChars f ++ ['"']) else f

/-- Join a record's encoded fields with the separator. -/
def svJoinFields (sep : Char) : List (List Char) → List Char
  | [] => []
  | [f] => svEncodeFieldChars sep f
  | f :: g :: fs => svEncodeFieldChars sep f ++ sep :: svJoinFields sep (g :: fs)

/-- Encode a table: one separator-joined record per line. -/
def svEncodeChars (sep : Char) : List (List (List Char)) → List Char
  | [] => []
  | r :: rs => svJoinFields sep r ++ '\n' :: svEncodeChars sep rs

/-- The exported csv/tsv text of a table of string rows. -/
def svEncode (sep : Char) (rows : List (List String)) : String :=
  ⟨svEncodeChars sep (rows.map fun r => r.map String.data)⟩

/-- What ended a field during parsing: a separator, a newline, or the
end of the input. -/
inductive SvDelim where
  | sepD
  | nlD
  | eofD
deriving DecidableEq, Repr

/-- Parse the body of a quoted field (the opening quote is already
consumed): a doubled quote is a literal quote, a lone quote closes the
field.  `fuel` bounds the steps (a doubled quote consumes two
characters at once); any fuel at least the input length suffices. -/
def svParseQuoted (sep : Char) : Nat → List Char → List Char → List Char × List Char
  | _, acc, [] => (acc.reverse, [])
  | 0, acc, cs => (acc.reverse, cs)
  | fuel + 1, acc, c :: rest =>
    if c = '"' then
      match rest with
      | [] => (acc.reverse, [])
      | c2 :: rest2 =>
        if c2 = '"' then svParseQuoted sep fuel ('"' :: acc) rest2
        else (acc.reverse, rest)
    else svParseQuoted sep fuel (c :: acc) rest

/-- Parse an unquoted field up to the separator, a newline, or the end. -/
def svParseUnquoted (sep : Char) (acc : List Char) : List Char → List Char × List Char × SvDelim
  | [] => (acc.reverse, [], .eofD)
  | c :: rest =>
    if c = sep then (acc.reverse, rest, .sepD)
    else if c = '\n' then (acc.reverse, rest, .nlD)
    else svParseUnquoted sep (c :: acc) rest

/-- Skip to the next delimiter (recovery after a malformed close
quote; never reached on well-formed input). -/
def svSkipToDelim (sep : Char) : List Char → List Char × SvDelim
  | [] => ([], .eofD)
  | c :: rest =>
    if c = sep then (rest, .sepD)
    else if c = '\n' then (rest, .nlD)
    else svSkipToDelim sep rest

/-- Parse one field of a record, returning its content, the remaining
input, and which delimiter ended it. -/
def svParseField (sep : Char) (cs : List Char) : List Char × List Char × SvDelim :=
  match cs with
  | [] => ([], [], .eofD)
  | c :: rest =>
    if c = '"' then
      let q := svParseQuoted sep cs.length [] rest
      match q.2 with
      | [] => (q.1, [], .eofD)
      | c2 :: r2 =>
        if c2 = sep then (q.1, r2, .sepD)
        else if c2 = '\n' then (q.1, r2, .nlD)
        else
          let sk := svSkipToDelim sep (c2 :: r2)
          (q.1, sk.1, sk.2)
    else
      svParseUnquoted sep [] cs

/-- Parse a sequence of records.  `cur` holds the fields of the record
in progress (reversed); `fuel` bounds the number of fields (each field
consumes at least one character, so the input length suffices). -/
def svParseRecords (sep : Char) : Nat → List (List Char) → List Char → List (List (List Char))
  | _, cur, [] => if cur.isEmpty then [] else [cur.reverse]
  | 0, cur, _ :: _ => [cur.reverse]
  | fuel + 1, cur, c :: cs =>
    let r := svParseField sep (c :: cs)
    match r.2.2 with
    | .sepD => svParseRecords sep fuel (r.1 :: cur) r.2.1
    | .nlD => (r.1 :: cur).reverse :: svParseRecords sep fuel [] r.2.1
    | .eofD => [(r.1 :: cur).reverse]

/-- Parse a csv/tsv text back into its rows of string fields. -/
def svParse (sep : Char) (s : String) : List (List String) :=
  (svParseRecords sep s.data.length [] s.data).map fun r => r.map String.mk

/-! ## The dataset built in `p.Action`

`tablib.NewDataset([]string{"file", "package", "branch", "repository",
"architecture"})` followed by one `AppendValues(f.path, f.pkg,
f.branch, f.repo, f.arch)` per extracted record. -/

def datasetHeaders : List String :=
  ["file", "package", "branch", "repository", "architecture"]

/-- The rows of the content dataset: the fixed header row, then the
five field values of each record in order. -/
def datasetRows (files : List fileInfo) : List (List String) :=
  datasetHeaders :: (files.map fun f => [f.path, f.pkg, f.branch, f.repo, f.arch])

/-- The csv export of the dataset. -/
def csvExport (files : List fileInfo) : String := svEncode ',' (datasetRows files)

/-- The tsv export of the dataset. -/
def tsvExport (files : List fileInfo) : String := svEncode '\t' (datasetRows files)

example :
    csvExport [⟨"usr/lib/libssl.so.1.1", "openssl", "v3.8", "main", "x86_64"⟩] =
      "file,package,branch,repository,architecture\nusr/lib/libssl.so.1.1,openssl,v3.8,main,x86_64\n" := by
  decide

example :
    svParse ',' (csvExport [⟨"a,b", "q\"x", "v3.8", "", "x86_64"⟩]) =
      datasetRows [⟨"a,b", "q\"x", "v3.8", "", "x86_64"⟩] := by
  decide

/-! ## JSON export and re-parse

Modelled from the spec: the json serializer lives in the external
`go-tablib` dependency, not in this repository; the spec fixes its
shape — "JSON: array of objects keyed by the column names".  Each
record becomes one object with the five column keys and the record's
string values, with standard JSON string escaping (quote, backslash
and control characters); the parser below reads that array-of-flat-
objects sublanguage back. -/

/-- JSON escape of one character: `"` and `\` and the common control
characters get two-character escapes, other control characters get
`\u00XX`, everything else is copied. -/
def jsonEscapeChar (c : Char) : List Char :=
  if c = '"' then ['\\', '"']
  else if c = '\\' then ['\\', '\\']
  else if c = '\n' then ['\\', 'n']
  else if c = '\r' then ['\\', 'r']
  else if c = '\t' then ['\\', 't']
  else if c.toNat < 0x20 then
    ['\\', 'u', '0', '0', upperHexDigit (c.toNat / 16), upperHexDigit (c.toNat % 16)]
  else [c]

/-- JSON escape of a string's characters. -/
def jsonEscapeChars (l : List Char) : List Char := l.flatMap jsonEscapeChar

/-- One `"key":"value"` member. -/
def jsonPairChars (p : List Char × List Char) : List Char :=
  '"' :: (jsonEscapeChars p.1 ++ '"' :: ':' :: '"' :: (jsonEscapeChars p.2 ++ ['"']))

/-- Members joined with commas. -/
def jsonJoinPairs : List (List Char × List Char) → List Char
  | [] => []
  | [p] => jsonPairChars p
  | p :: q :: ps => jsonPairChars p ++ ',' :: jsonJoinPairs (q :: ps)

/-- One object. -/
def jsonObjChars (o : List (List Char × List Char)) : List Char :=
  '{' :: (jsonJoinPairs o ++ ['}'])

/-- Objects joined with commas. -/
def jsonJoinObjs : List (List (List Char × List Char)) → List Char
  | [] => []
  | [o] => jsonObjChars o
  | o :: p :: os => jsonObjChars o ++ ',' :: jsonJoinObjs (p :: os)

/-- The whole array. -/
def jsonExportChars (objs : List (List (List Char × List Char))) : List Char :=
  '[' :: (jsonJoinObjs objs ++ [']'])

/-- The key/value pairs of one record's object, keyed by the column
names in column order. -/
def jsonRecord (f : fileInfo) : List (String × String) :=
  [("file", f.path), ("package", f.pkg), ("branch", f.branch),
   ("repository", f.repo), ("architecture", f.arch)]

/-- The json export of the dataset: an array of one object per record. -/
def jsonExport (files : List fileInfo) : String :=
  ⟨jsonExportChars (files.map fun f => (jsonRecord f).map fun p => (p.1.data, p.2.data))⟩

/-- Value of a hexadecimal digit. -/
def hexVal (c : Char) : Option Nat :=
  if '0' ≤ c ∧ c ≤ '9' then some (c.toNat - 0x30)
  else if 'A' ≤ c ∧ c ≤ 'F' then some (c.toNat - 0x37)
  else if 'a' ≤ c ∧ c ≤ 'f' then some (c.toNat - 0x57)
  else none

/-- Parse a JSON string body (the opening quote is already consumed)
up to its closing quote, undoing the escapes.  `fuel` bounds the
steps; any fuel at least the input length suffices. -/
def jsonParseStringBody : Nat → List Char → List Char → Option (List Char × List Char)
  | _, _, [] => none
  | 0, _, _ :: _ => none
  | fuel + 1, acc, c :: rest =>
    if c = '"' then some (acc.reverse, rest)
    else if c = '\\' then
      match rest with
      | [] => none
      | e :: rest2 =>
        if e = '"' then jsonParseStringBody fuel ('"' :: acc) rest2
        else if e = '\\' then jsonParseStringBody fuel ('\\' :: acc) rest2
        else if e = '/' then jsonParseStringBody fuel ('/' :: acc) rest2
        else if e = 'n' then jsonParseStringBody fuel ('\n' :: acc) rest2
        else if e = 'r' then jsonParseStringBody fuel ('\r' :: acc) rest2
        else if e = 't' then jsonParseStringBody fuel ('\t' :: acc) rest2
        else if e = 'u' then
          match rest2 with
          | h1 :: h2 :: h3 :: h4 :: rest3 =>
            match hexVal h1, hexVal h2, hexVal h3, hexVal h4 with
            | some a, some b, some c3, some d =>
              jsonParseStringBody fuel (Char.ofNat (((a * 16 + b) * 16 + c3) * 16 + d) :: acc) rest3
            | _, _, _, _ => none
          | _ => none
        else none
    else jsonParseStringBody fuel (c :: acc) rest

/-- Parse one `"key":"value"` member: an opening quote, the key body,
a colon, another opening quote, the value body. -/
def jsonParsePair (cs : List Char) : Option ((List Char × List Char) × List Char) :=
  match cs with
  | [] => none
  | c :: r1 =>
    if c = '"' then
      match jsonParseStringBody r1.length [] r1 with
      | none => none
      | some kr =>
        match kr.2 with
        | [] => none
        | c2 :: r3 =>
          if c2 = ':' then
            match r3 with
            | [] => none
            | c3 :: r4 =>
              if c3 = '"' then
                match jsonParseStringBody r4.length [] r4 with
                | none => none
                | some vr => some ((kr.1, vr.1), vr.2)
              else none
          else none
    else none

/-- Parse the members of an object up to its closing brace.  `fuel`
bounds the number of members; the input length suffices. -/
def jsonParsePairs : Nat → List (List Char × List Char) → List Char →
    Option (List (List Char × List Char) × List Char)
  | 0, _, _ => none
  | fuel + 1, acc, cs =>
    match jsonParsePair cs with
    | none => none
    | some pr =>
      match pr.2 with
      | [] => none
      | c :: r2 =>
        if c = ',' then jsonParsePairs fuel (pr.1 :: acc) r2
        else if c = '}' then some ((pr.1 :: acc).reverse, r2)
        else none

/-- Parse one object. -/
def jsonParseObj (cs : List Char) : Option (List (List Char × List Char) × List Char) :=
  match cs with
  | [] => none
  | c :: r1 =>
    if c = '{' then
      match r1 with
      | [] => none
      | c2 :: _ =>
        if c2 = '}' then some ([], r1.tail) else jsonParsePairs r1.length [] r1
    else none

/-- Parse the elements of the array up to its closing bracket.  `fuel`
bounds the number of elements; the input length suffices. -/
def jsonParseElems : Nat → List (List (List Char × List Char)) → List Char →
    Option (List (List (List Char × List Char)) × List Char)
  | 0, _, _ => none
  | fuel + 1, acc, cs =>
    match jsonParseObj cs with
    | none => none
    | some ors =>
      match ors.2 with
      | [] => none
      | c :: r2 =>
        if c = ',' then jsonParseElems fuel (ors.1 :: acc) r2
        else if c = ']' then some ((ors.1 :: acc).reverse, r2)
        else none

/-- Parse a whole exported document: an array of flat string-keyed
objects, with nothing after the closing bracket. -/
def jsonParseTop (s : String) : Option (List (List (String × String))) :=
  match s.data with
  | [] => none
  | c :: r1 =>
    if c = '[' then
      match r1 with
      | [] => none
      | c2 :: r2 =>
        if c2 = ']' then
          if r2.isEmpty then some [] else none
        else
          match jsonParseElems r1.length [] r1 with
          | none => none
          | some er =>
            if er.2.isEmpty then
              some (er.1.map fun o => o.map fun p => (String.mk p.1, String.mk p.2))
            else none
    else none

example :
    jsonExport [⟨"usr/lib/libssl.so.1.1", "openssl", "v3.8", "main", "x86_64"⟩] =
      "[\x7b\"file\":\"usr/lib/libssl.so.1.1\",\"package\":\"openssl\",\"branch\":\"v3.8\",\"repository\":\"main\",\"architecture\":\"x86_64\"\x7d]" := by
  decide

example :
    jsonParseTop (jsonExport [⟨"a\"b", "x\\y", "v3.8", "", "x86_64"⟩]) =
      some [jsonRecord ⟨"a\"b", "x\\y", "v3.8", "", "x86_64"⟩] := by
  decide

/-! # Helper lemmas -/

theorem goTrimPrefix_star (x : String) : goTrimPrefix ("*" ++ x ++ "*") "*" = x ++ "*" := by
  apply String.ext
  show goTrimPrefixChars ("*" ++ x ++ "*").data "*".data = (x ++ "*").data
  rw [String.data_append, String.data_append, String.data_append]
  show goTrimPrefixChars (['*'] ++ x.data ++ ['*']) ['*'] = x.data ++ ['*']
  simp [goTrimPrefixChars, List.isPrefixOf]

theorem applyCell_high (f : fileInfo) (n : Nat) (s : String) (h : 5 ≤ n) :
    applyCell f n s = f := by
  obtain ⟨m, rfl⟩ : ∃ m, n = m + 5 := ⟨n - 5, by omega⟩
  rfl

theorem foldl_applyCell_high (extras : List String) :
    ∀ (n : Nat) (f : fileInfo), 5 ≤ n →
      (extras.enumFrom n).foldl (fun g p => applyCell g p.1 p.2) f = f := by
  induction extras with
  | nil => intro n f _; rfl
  | cons c t ih =>
    intro n f h
    rw [List.enumFrom_cons, List.foldl_cons, applyCell_high f n c h]
    exact ih (n + 1) f (by omega)

theorem rowToFileInfo_five (c0 c1 c2 c3 c4 : String) (extras : List String) :
    rowToFileInfo ([c0, c1, c2, c3, c4] ++ extras) = ⟨c0, c1, c2, c3, c4⟩ := by
  show (extras.enumFrom 5).foldl (fun g p => applyCell g p.1 p.2) ⟨c0, c1, c2, c3, c4⟩ = _
  exact foldl_applyCell_high extras 5 _ (by omega)

theorem rowToFileInfo_of_length_five (cells : List String) (h : cells.length = 5) :
    rowToFileInfo cells =
      ⟨cells.getD 0 "", cells.getD 1 "", cells.getD 2 "",
       cells.getD 3 "", cells.getD 4 ""⟩ := by
  rcases cells with _ | ⟨c0, _ | ⟨c1, _ | ⟨c2, _ | ⟨c3, _ | ⟨c4, rest⟩⟩⟩⟩⟩ <;> simp at h
  subst h
  rfl

theorem rowToFileInfo_getD (cells : List String) :
    rowToFileInfo cells =
      ⟨cells.getD 0 "", cells.getD 1 "", cells.getD 2 "",
       cells.getD 3 "", cells.getD 4 ""⟩ := by
  rcases cells with _ | ⟨c0, _ | ⟨c1, _ | ⟨c2, _ | ⟨c3, _ | ⟨c4, rest⟩⟩⟩⟩⟩
  · rfl
  · rfl
  · rfl
  · rfl
  · rfl
  · exact rowToFileInfo_five c0 c1 c2 c3 c4 rest

theorem getD_of_length_le (d : String) :
    ∀ (l : List String) (i : Nat), l.length ≤ i → l.getD i d = d := by
  intro l
  induction l with
  | nil => intro i _; rfl
  | cons x xs ih =>
    intro i h
    cases i with
    | zero => simp at h
    | succ n =>
      rw [List.getD_cons_succ]
      exact ih n (by simpa using h)

theorem enumFrom_filter_high (extras : List String) :
    ∀ n, 5 ≤ n →
      (extras.enumFrom n).filter (fun p => decide (5 ≤ p.1)) = extras.enumFrom n := by
  induction extras with
  | nil => intro n _; rfl
  | cons c t ih =>
    intro n h
    rw [List.enumFrom_cons, List.filter_cons]
    rw [if_pos (by simpa using h)]
    rw [ih (n + 1) (by omega)]

/-! ## Round-trip lemmas for the separated-values codec -/

theorem svNeedsQuote_false_mem {sep : Char} {f : List Char} (h : svNeedsQuote sep f = false)
    {c : Char} (hc : c ∈ f) : ¬(c = sep ∨ c = '"' ∨ c = '\n' ∨ c = '\r') := by
  simp only [svNeedsQuote, List.any_eq_false, Bool.or_eq_true, beq_iff_eq] at h
  intro hor
  exact h c hc (by tauto)

theorem svNeedsQuote_false_noDelim {sep : Char} {f : List Char}
    (h : svNeedsQuote sep f = false) : ∀ c ∈ f, c ≠ sep ∧ c ≠ '\n' :=
  fun _c hc =>
    ⟨fun he => svNeedsQuote_false_mem h hc (Or.inl he),
     fun he => svNeedsQuote_false_mem h hc (Or.inr (Or.inr (Or.inl he)))⟩

theorem svParseUnquoted_cons (sep : Char) (acc : List Char) (c : Char) (rest : List Char) :
    svParseUnquoted sep acc (c :: rest) =
      if c = sep then (acc.reverse, rest, SvDelim.sepD)
      else if c = '\n' then (acc.reverse, rest, SvDelim.nlD)
      else svParseUnquoted sep (c :: acc) rest := rfl

theorem svParseQuoted_cons (sep : Char) (fuel : Nat) (acc : List Char) (c : Char)
    (rest : List Char) :
    svParseQuoted sep (fuel + 1) acc (c :: rest) =
      if c = '"' then
        match rest with
        | [] => (acc.reverse, [])
        | c2 :: rest2 =>
          if c2 = '"' then svParseQuoted sep fuel ('"' :: acc) rest2
          else (acc.reverse, rest)
      else svParseQuoted sep fuel (c :: acc) rest := rfl

theorem svParseField_cons_quote (sep : Char) (rest : List Char) :
    svParseField sep ('"' :: rest) =
      (match (svParseQuoted sep ('"' :: rest).length [] rest).2 with
       | [] => ((svParseQuoted sep ('"' :: rest).length [] rest).1, [], SvDelim.eofD)
       | c2 :: r2 =>
         if c2 = sep then ((svParseQuoted sep ('"' :: rest).length [] rest).1, r2, SvDelim.sepD)
         else if c2 = '\n' then
           ((svParseQuoted sep ('"' :: rest).length [] rest).1, r2, SvDelim.nlD)
         else
           ((svParseQuoted sep ('"' :: rest).length [] rest).1,
            (svSkipToDelim sep (c2 :: r2)).1, (svSkipToDelim sep (c2 :: r2)).2)) := rfl

theorem svParseField_cons_nonquote (sep : Char) (c : Char) (rest : List Char) (hc : c ≠ '"') :
    svParseField sep (c :: rest) = svParseUnquoted sep [] (c :: rest) := by
  show (if c = '"' then _ else svParseUnquoted sep [] (c :: rest)) = _
  rw [if_neg hc]

theorem svParseUnquoted_encode_eof (sep : Char) :
    ∀ (l : List Char), (∀ c ∈ l, c ≠ sep ∧ c ≠ '\n') →
      ∀ acc, svParseUnquoted sep acc l = (acc.reverse ++ l, [], SvDelim.eofD) := by
  intro l
  induction l with
  | nil => intro _ acc; simp [svParseUnquoted]
  | cons c t ih =>
    intro hl acc
    have hc := hl c (List.mem_cons_self c t)
    rw [svParseUnquoted_cons, if_neg hc.1, if_neg hc.2]
    rw [ih (fun x hx => hl x (List.mem_cons_of_mem _ hx)) (c :: acc)]
    simp

theorem svParseUnquoted_encode_sep (sep : Char) :
    ∀ (l : List Char), (∀ c ∈ l, c ≠ sep ∧ c ≠ '\n') →
      ∀ acc r, svParseUnquoted sep acc (l ++ sep :: r) = (acc.reverse ++ l, r, SvDelim.sepD) := by
  intro l
  induction l with
  | nil =>
    intro _ acc r
    rw [List.nil_append, svParseUnquoted_cons, if_pos rfl]
    simp
  | cons c t ih =>
    intro hl acc r
    have hc := hl c (List.mem_cons_self c t)
    rw [List.cons_append, svParseUnquoted_cons, if_neg hc.1, if_neg hc.2]
    rw [ih (fun x hx => hl x (List.mem_cons_of_mem _ hx)) (c :: acc) r]
    simp

theorem svParseUnquoted_encode_nl (sep : Char) (hn : sep ≠ '\n') :
    ∀ (l : List Char), (∀ c ∈ l, c ≠ sep ∧ c ≠ '\n') →
      ∀ acc r, svParseUnquoted sep acc (l ++ '\n' :: r) = (acc.reverse ++ l, r, SvDelim.nlD) := by
  intro l
  induction l with
  | nil =>
    intro _ acc r
    have h1 : ('\n' : Char) ≠ sep := fun he => hn he.symm
    rw [List.nil_append, svParseUnquoted_cons, if_neg h1, if_pos rfl]
    simp
  | cons c t ih =>
    intro hl acc r
    have hc := hl c (List.mem_cons_self c t)
    rw [List.cons_append, svParseUnquoted_cons, if_neg hc.1, if_neg hc.2]
    rw [ih (fun x hx => hl x (List.mem_cons_of_mem _ hx)) (c :: acc) r]
    simp

theorem svParseQuoted_escape (sep : Char) :
    ∀ (l acc rest : List Char) (fuel : Nat),
      (svEscapeChars l).length + 1 ≤ fuel → rest.head? ≠ some '"' →
      svParseQuoted sep fuel acc (svEscapeChars l ++ '"' :: rest) = (acc.reverse ++ l, rest) := by
  intro l
  induction l with
  | nil =>
    intro acc rest fuel hfuel hrest
    obtain ⟨f, rfl⟩ : ∃ f, fuel = f + 1 := ⟨fuel - 1, by omega⟩
    show svParseQuoted sep (f + 1) acc ('"' :: rest) = (acc.reverse ++ [], rest)
    rw [svParseQuoted_cons, if_pos rfl]
    cases rest with
    | nil => simp
    | cons c2 r2 =>
      have hc2 : c2 ≠ '"' := by
        intro he
        exact hrest (by simp [he])
      dsimp only
      rw [if_neg hc2]
      simp
  | cons c t ih =>
    intro acc rest fuel hfuel hrest
    by_cases hc : c = '"'
    · subst hc
      have hesc : svEscapeChars ('"' :: t) = '"' :: '"' :: svEscapeChars t := by
        simp [svEscapeChars]
      rw [hesc] at hfuel
      obtain ⟨f, rfl⟩ : ∃ f, fuel = f + 1 := ⟨fuel - 1, by simp at hfuel; omega⟩
      rw [hesc, List.cons_append, List.cons_append, svParseQuoted_cons, if_pos rfl]
      dsimp only
      rw [if_pos rfl]
      rw [ih ('"' :: acc) rest f (by simp at hfuel ⊢; omega) hrest]
      simp
    · have hesc : svEscapeChars (c :: t) = c :: svEscapeChars t := by
        simp [svEscapeChars, hc]
      rw [hesc] at hfuel
      obtain ⟨f, rfl⟩ : ∃ f, fuel = f + 1 := ⟨fuel - 1, by simp at hfuel; omega⟩
      rw [hesc, List.cons_append, svParseQuoted_cons, if_neg hc]
      rw [ih (c :: acc) rest f (by simp at hfuel ⊢; omega) hrest]
      simp

theorem svParseField_encode_sep (sep : Char) (hq : sep ≠ '"') (f r : List Char) :
    svParseField sep (svEncodeFieldChars sep f ++ sep :: r) = (f, r, SvDelim.sepD) := by
  by_cases hnq : svNeedsQuote sep f = true
  · have henc : svEncodeFieldChars sep f = '"' :: (svEscapeChars f ++ ['"']) := by
      simp [svEncodeFieldChars, hnq]
    rw [henc, List.cons_append]
    have hstream : (svEscapeChars f ++ ['"']) ++ sep :: r = svEscapeChars f ++ '"' :: sep :: r := by
      simp
    rw [hstream, svParseField_cons_quote]
    rw [svParseQuoted_escape sep f [] (sep :: r) _
      (by simp only [List.length_cons, List.length_append]; omega) (by simpa using hq)]
    dsimp only
    rw [if_pos rfl]
    simp
  · have hnq' : svNeedsQuote sep f = false := by simpa using hnq
    have henc : svEncodeFieldChars sep f = f := by simp [svEncodeFieldChars, hnq']
    rw [henc]
    cases f with
    | nil =>
      rw [List.nil_append, svParseField_cons_nonquote sep sep r hq,
        svParseUnquoted_cons, if_pos rfl]
      simp
    | cons c t =>
      have hcq : c ≠ '"' := fun he =>
        svNeedsQuote_false_mem hnq' (List.mem_cons_self c t) (Or.inr (Or.inl he))
      rw [List.cons_append, svParseField_cons_nonquote sep c _ hcq, ← List.cons_append]
      rw [svParseUnquoted_encode_sep sep (c :: t) (svNeedsQuote_false_noDelim hnq') [] r]
      simp

theorem svParseField_encode_nl (sep : Char) (_hq : sep ≠ '"') (hn : sep ≠ '\n') (f r : List Char) :
    svParseField sep (svEncodeFieldChars sep f ++ '\n' :: r) = (f, r, SvDelim.nlD) := by
  have h1 : ('\n' : Char) ≠ sep := fun he => hn he.symm
  by_cases hnq : svNeedsQuote sep f = true
  · have henc : svEncodeFieldChars sep f = '"' :: (svEscapeChars f ++ ['"']) := by
      simp [svEncodeFieldChars, hnq]
    rw [henc, List.cons_append]
    have hstream : (svEscapeChars f ++ ['"']) ++ '\n' :: r = svEscapeChars f ++ '"' :: '\n' :: r := by
      simp
    rw [hstream, svParseField_cons_quote]
    rw [svParseQuoted_escape sep f [] ('\n' :: r) _
      (by simp only [List.length_cons, List.length_append]; omega) (by simp)]
    dsimp only
    rw [if_neg h1, if_pos rfl]
    simp
  · have hnq' : svNeedsQuote sep f = false := by simpa using hnq
    have henc : svEncodeFieldChars sep f = f := by simp [svEncodeFieldChars, hnq']
    rw [henc]
    cases f with
    | nil =>
      have h0 : ('\n' : Char) ≠ '"' := by decide
      rw [List.nil_append, svParseField_cons_nonquote sep '\n' r h0,
        svParseUnquoted_cons, if_neg h1, if_pos rfl]
      simp
    | cons c t =>
      have hcq : c ≠ '"' := fun he =>
        svNeedsQuote_false_mem hnq' (List.mem_cons_self c t) (Or.inr (Or.inl he))
      rw [List.cons_append, svParseField_cons_nonquote sep c _ hcq, ← List.cons_append]
      rw [svParseUnquoted_encode_nl sep hn (c :: t) (svNeedsQuote_false_noDelim hnq') [] r]
      simp

theorem svParseRecords_step (sep : Char) (fuel : Nat) (cur : List (List Char)) (cs : List Char)
    (h : cs ≠ []) (hf : fuel ≠ 0) :
    svParseRecords sep fuel cur cs =
      match (svParseField sep cs).2.2 with
      | .sepD => svParseRecords sep (fuel - 1) ((svParseField sep cs).1 :: cur)
          (svParseField sep cs).2.1
      | .nlD => ((svParseField sep cs).1 :: cur).reverse ::
          svParseRecords sep (fuel - 1) [] (svParseField sep cs).2.1
      | .eofD => [((svParseField sep cs).1 :: cur).reverse] := by
  cases fuel with
  | zero => exact absurd rfl hf
  | succ n =>
    cases cs with
    | nil => exact absurd rfl h
    | cons c cs' => rfl

theorem svParseRecords_row (sep : Char) (hq : sep ≠ '"') (hn : sep ≠ '\n') :
    ∀ (fields cur : List (List Char)) (rest : List Char) (fuel : Nat),
      fields ≠ [] →
      (svJoinFields sep fields).length + 1 + rest.length ≤ fuel →
      ∃ fuel', rest.length ≤ fuel' ∧
        svParseRecords sep fuel cur (svJoinFields sep fields ++ '\n' :: rest) =
          (cur.reverse ++ fields) :: svParseRecords sep fuel' [] rest := by
  intro fields
  induction fields with
  | nil => intro cur rest fuel hne; exact absurd rfl hne
  | cons f fs ih =>
    intro cur rest fuel _ hfuel
    cases fs with
    | nil =>
      have hcs : svJoinFields sep [f] ++ '\n' :: rest ≠ [] := by simp
      have hf0 : fuel ≠ 0 := by omega
      rw [svParseRecords_step sep fuel cur _ hcs hf0]
      have hjoin : svJoinFields sep [f] = svEncodeFieldChars sep f := rfl
      rw [hjoin, svParseField_encode_nl sep hq hn f rest]
      exact ⟨fuel - 1, by omega, by simp⟩
    | cons g gs =>
      have hassoc : svJoinFields sep (f :: g :: gs) ++ '\n' :: rest =
          svEncodeFieldChars sep f ++ sep :: (svJoinFields sep (g :: gs) ++ '\n' :: rest) := by
        simp [svJoinFields]
      have hlen : (svJoinFields sep (f :: g :: gs)).length =
          (svEncodeFieldChars sep f).length + 1 + (svJoinFields sep (g :: gs)).length := by
        simp [svJoinFields]; omega
      have hcs : svJoinFields sep (f :: g :: gs) ++ '\n' :: rest ≠ [] := by simp
      have hf0 : fuel ≠ 0 := by omega
      rw [svParseRecords_step sep fuel cur _ hcs hf0, hassoc,
        svParseField_encode_sep sep hq f _]
      obtain ⟨fuel', hfl, heq⟩ := ih (f :: cur) rest (fuel - 1) (by simp)
        (by rw [hlen] at hfuel; omega)
      rw [heq]
      exact ⟨fuel', hfl, by simp⟩

theorem svParseRecords_table (sep : Char) (hq : sep ≠ '"') (hn : sep ≠ '\n') :
    ∀ (rows : List (List (List Char))) (fuel : Nat),
      (∀ r ∈ rows, r ≠ []) →
      (svEncodeChars sep rows).length ≤ fuel →
      svParseRecords sep fuel [] (svEncodeChars sep rows) = rows := by
  intro rows
  induction rows with
  | nil => intro fuel _ _; cases fuel <;> rfl
  | cons r rs ih =>
    intro fuel hne hfuel
    have hlen : (svEncodeChars sep (r :: rs)).length =
        (svJoinFields sep r).length + 1 + (svEncodeChars sep rs).length := by
      simp [svEncodeChars]; omega
    obtain ⟨fuel', hfl, heq⟩ := svParseRecords_row sep hq hn r [] (svEncodeChars sep rs) fuel
      (hne r (List.mem_cons_self r rs)) (by rw [hlen] at hfuel; omega)
    show svParseRecords sep fuel [] (svJoinFields sep r ++ '\n' :: svEncodeChars sep rs) = r :: rs
    rw [heq, ih fuel' (fun x hx => hne x (List.mem_cons_of_mem _ hx)) hfl]
    simp

theorem svParse_svEncode (sep : Char) (hq : sep ≠ '"') (hn : sep ≠ '\n')
    (rows : List (List String)) (hne : ∀ r ∈ rows, r ≠ []) :
    svParse sep (svEncode sep rows) = rows := by
  have hdata : (svEncode sep rows).data =
      svEncodeChars sep (rows.map fun r => r.map String.data) := rfl
  rw [svParse, hdata]
  rw [svParseRecords_table sep hq hn _ _ ?_ ?_]
  · rw [List.map_map]
    have hcomp : ((fun r : List (List Char) => r.map String.mk) ∘
        fun r : List String => r.map String.data) = id := by
      funext r
      show (r.map String.data).map String.mk = r
      rw [List.map_map]
      show r.map (fun s => String.mk s.data) = r
      have h2 : (fun s : String => String.mk s.data) = id := funext fun s => rfl
      rw [h2, List.map_id]
    rw [hcomp, List.map_id]
  · intro r hr
    obtain ⟨r0, hr0, rfl⟩ := List.mem_map.mp hr
    intro he
    exact hne r0 hr0 (by simpa using he)
  · exact le_refl _

/-! ## Round-trip lemmas for the json codec -/

theorem hexVal_upperHexDigit (m : Nat) (hm : m < 16) : hexVal (upperHexDigit m) = some m := by
  interval_cases m <;> decide

theorem jsonParseStringBody_cons (fuel : Nat) (acc : List Char) (c : Char) (rest : List Char) :
    jsonParseStringBody (fuel + 1) acc (c :: rest) =
      if c = '"' then some (acc.reverse, rest)
      else if c = '\\' then
        match rest with
        | [] => none
        | e :: rest2 =>
          if e = '"' then jsonParseStringBody fuel ('"' :: acc) rest2
          else if e = '\\' then jsonParseStringBody fuel ('\\' :: acc) rest2
          else if e = '/' then jsonParseStringBody fuel ('/' :: acc) rest2
          else if e = 'n' then jsonParseStringBody fuel ('\n' :: acc) rest2
          else if e = 'r' then jsonParseStringBody fuel ('\r' :: acc) rest2
          else if e = 't' then jsonParseStringBody fuel ('\t' :: acc) rest2
          else if e = 'u' then
            match rest2 with
            | h1 :: h2 :: h3 :: h4 :: rest3 =>
              match hexVal h1, hexVal h2, hexVal h3, hexVal h4 with
              | some a, some b, some c3, some d =>
                jsonParseStringBody fuel
                  (Char.ofNat (((a * 16 + b) * 16 + c3) * 16 + d) :: acc) rest3
              | _, _, _, _ => none
            | _ => none
          else none
      else jsonParseStringBody fuel (c :: acc) rest := rfl

theorem jsonParseStringBody_escape :
    ∀ (l acc rest : List Char) (fuel : Nat),
      (jsonEscapeChars l).length + 1 ≤ fuel →
      jsonParseStringBody fuel acc (jsonEscapeChars l ++ '"' :: rest) =
        some (acc.reverse ++ l, rest) := by
  intro l
  induction l with
  | nil =>
    intro acc rest fuel hfuel
    obtain ⟨f, rfl⟩ : ∃ f, fuel = f + 1 := ⟨fuel - 1, by omega⟩
    show jsonParseStringBody (f + 1) acc ('"' :: rest) = _
    rw [jsonParseStringBody_cons, if_pos rfl]
    simp
  | cons c t ih =>
    intro acc rest fuel hfuel
    by_cases h1 : c = '"'
    · subst h1
      have hesc : jsonEscapeChars ('"' :: t) = '\\' :: '"' :: jsonEscapeChars t := by
        simp [jsonEscapeChars, jsonEscapeChar]
      rw [hesc] at hfuel
      obtain ⟨f, rfl⟩ : ∃ f, fuel = f + 1 := ⟨fuel - 1, by simp at hfuel; omega⟩
      rw [hesc, List.cons_append, List.cons_append, jsonParseStringBody_cons,
        if_neg (by decide), if_pos rfl]
      dsimp only
      rw [if_pos rfl]
      rw [ih ('"' :: acc) rest f (by simp at hfuel; omega)]
      simp
    · by_cases h2 : c = '\\'
      · subst h2
        have hesc : jsonEscapeChars ('\\' :: t) = '\\' :: '\\' :: jsonEscapeChars t := by
          simp [jsonEscapeChars, jsonEscapeChar]
        rw [hesc] at hfuel
        obtain ⟨f, rfl⟩ : ∃ f, fuel = f + 1 := ⟨fuel - 1, by simp at hfuel; omega⟩
        rw [hesc, List.cons_append, List.cons_append, jsonParseStringBody_cons,
          if_neg (by decide), if_pos rfl]
        dsimp only
        rw [if_neg (by decide), if_pos rfl]
        rw [ih ('\\' :: acc) rest f (by simp at hfuel; omega)]
        simp
      · by_cases h3 : c = '\n'
        · subst h3
          have hesc : jsonEscapeChars ('\n' :: t) = '\\' :: 'n' :: jsonEscapeChars t := by
            simp [jsonEscapeChars, jsonEscapeChar]
          rw [hesc] at hfuel
          obtain ⟨f, rfl⟩ : ∃ f, fuel = f + 1 := ⟨fuel - 1, by simp at hfuel; omega⟩
          rw [hesc, List.cons_append, List.cons_append, jsonParseStringBody_cons,
            if_neg (by decide), if_pos rfl]
          dsimp only
          rw [if_neg (by decide), if_neg (by decide), if_neg (by decide), if_pos rfl]
          rw [ih ('\n' :: acc) rest f (by simp at hfuel; omega)]
          simp
        · by_cases h4 : c = '\r'
          · subst h4
            have hesc : jsonEscapeChars ('\r' :: t) = '\\' :: 'r' :: jsonEscapeChars t := by
              simp [jsonEscapeChars, jsonEscapeChar]
            rw [hesc] at hfuel
            obtain ⟨f, rfl⟩ : ∃ f, fuel = f + 1 := ⟨fuel - 1, by simp at hfuel; omega⟩
            rw [hesc, List.cons_append, List.cons_append, jsonParseStringBody_cons,
              if_neg (by decide), if_pos rfl]
            dsimp only
            rw [if_neg (by decide), if_neg (by decide), if_neg (by decide), if_neg (by decide),
              if_pos rfl]
            rw [ih ('\r' :: acc) rest f (by simp at hfuel; omega)]
            simp
          · by_cases h5 : c = '\t'
            · subst h5
              have hesc : jsonEscapeChars ('\t' :: t) = '\\' :: 't' :: jsonEscapeChars t := by
                simp [jsonEscapeChars, jsonEscapeChar]
              rw [hesc] at hfuel
              obtain ⟨f, rfl⟩ : ∃ f, fuel = f + 1 := ⟨fuel - 1, by simp at hfuel; omega⟩
              rw [hesc, List.cons_append, List.cons_append, jsonParseStringBody_cons,
                if_neg (by decide), if_pos rfl]
              dsimp only
              rw [if_neg (by decide), if_neg (by decide), if_neg (by decide),
                if_neg (by decide), if_neg (by decide), if_pos rfl]
              rw [ih ('\t' :: acc) rest f (by simp at hfuel; omega)]
              simp
            · by_cases h6 : c.toNat < 0x20
              · have hesc : jsonEscapeChars (c :: t) =
                    '\\' :: 'u' :: '0' :: '0' :: upperHexDigit (c.toNat / 16) ::
                      upperHexDigit (c.toNat % 16) :: jsonEscapeChars t := by
                  simp [jsonEscapeChars, jsonEscapeChar, h1, h2, h3, h4, h5, h6]
                rw [hesc] at hfuel
                obtain ⟨f, rfl⟩ : ∃ f, fuel = f + 1 := ⟨fuel - 1, by simp at hfuel; omega⟩
                rw [hesc, List.cons_append, List.cons_append, List.cons_append,
                  List.cons_append, List.cons_append, List.cons_append,
                  jsonParseStringBody_cons, if_neg (by decide), if_pos rfl]
                dsimp only
                rw [if_neg (by decide), if_neg (by decide), if_neg (by decide),
                  if_neg (by decide), if_neg (by decide), if_neg (by decide), if_pos rfl]
                rw [show hexVal '0' = some 0 from rfl,
                  hexVal_upperHexDigit (c.toNat / 16) (by omega),
                  hexVal_upperHexDigit (c.toNat % 16) (by omega)]
                dsimp only
                rw [show ((0 * 16 + 0) * 16 + c.toNat / 16) * 16 + c.toNat % 16 = c.toNat from by
                  omega]
                rw [Char.ofNat_toNat]
                rw [ih (c :: acc) rest f (by simp at hfuel; omega)]
                simp
              · have hesc : jsonEscapeChars (c :: t) = c :: jsonEscapeChars t := by
                  simp [jsonEscapeChars, jsonEscapeChar, h1, h2, h3, h4, h5, h6]
                rw [hesc] at hfuel
                obtain ⟨f, rfl⟩ : ∃ f, fuel = f + 1 := ⟨fuel - 1, by simp at hfuel; omega⟩
                rw [hesc, List.cons_append, jsonParseStringBody_cons, if_neg h1, if_neg h2]
                rw [ih (c :: acc) rest f (by simp at hfuel; omega)]
                simp

theorem jsonParsePair_cons (c : Char) (r1 : List Char) :
    jsonParsePair (c :: r1) =
      (if c = '"' then
        match jsonParseStringBody r1.length [] r1 with
        | none => none
        | some kr =>
          match kr.2 with
          | [] => none
          | c2 :: r3 =>
            if c2 = ':' then
              match r3 with
              | [] => none
              | c3 :: r4 =>
                if c3 = '"' then
                  match jsonParseStringBody r4.length [] r4 with
                  | none => none
                  | some vr => some ((kr.1, vr.1), vr.2)
                else none
            else none
      else none) := rfl

theorem jsonParsePair_encode (p : List Char × List Char) (rest : List Char) :
    jsonParsePair (jsonPairChars p ++ rest) = some (p, rest) := by
  obtain ⟨k, v⟩ := p
  have hshape : jsonPairChars (k, v) ++ rest =
      '"' :: (jsonEscapeChars k ++ '"' :: (':' :: '"' :: (jsonEscapeChars v ++ '"' :: rest))) := by
    simp [jsonPairChars]
  rw [hshape, jsonParsePair_cons, if_pos rfl]
  rw [jsonParseStringBody_escape k []
    (':' :: '"' :: (jsonEscapeChars v ++ '"' :: rest)) _
    (by simp only [List.length_cons, List.length_append]; omega)]
  dsimp only
  rw [if_pos rfl, if_pos rfl]
  rw [jsonParseStringBody_escape v [] rest _
    (by simp only [List.length_cons, List.length_append]; omega)]
  simp

theorem jsonParsePairs_succ (fuel : Nat) (acc : List (List Char × List Char)) (cs : List Char) :
    jsonParsePairs (fuel + 1) acc cs =
      (match jsonParsePair cs with
       | none => none
       | some pr =>
         match pr.2 with
         | [] => none
         | c :: r2 =>
           if c = ',' then jsonParsePairs fuel (pr.1 :: acc) r2
           else if c = '}' then some ((pr.1 :: acc).reverse, r2)
           else none) := rfl

theorem jsonParsePairs_encode :
    ∀ (ps acc : List (List Char × List Char)) (rest : List Char) (fuel : Nat),
      ps ≠ [] →
      (jsonJoinPairs ps).length + 1 + rest.length ≤ fuel →
      jsonParsePairs fuel acc (jsonJoinPairs ps ++ '}' :: rest) =
        some (acc.reverse ++ ps, rest) := by
  intro ps
  induction ps with
  | nil => intro acc rest fuel h; exact absurd rfl h
  | cons p qs ih =>
    intro acc rest fuel _ hfuel
    obtain ⟨f, rfl⟩ : ∃ f, fuel = f + 1 := ⟨fuel - 1, by omega⟩
    cases qs with
    | nil =>
      show jsonParsePairs (f + 1) acc (jsonPairChars p ++ '}' :: rest) = _
      rw [jsonParsePairs_succ, jsonParsePair_encode p ('}' :: rest)]
      dsimp only
      rw [if_neg (by decide), if_pos rfl]
      simp
    | cons q qs' =>
      have hshape : jsonJoinPairs (p :: q :: qs') ++ '}' :: rest =
          jsonPairChars p ++ ',' :: (jsonJoinPairs (q :: qs') ++ '}' :: rest) := by
        simp [jsonJoinPairs]
      have hlen : (jsonJoinPairs (p :: q :: qs')).length =
          (jsonPairChars p).length + 1 + (jsonJoinPairs (q :: qs')).length := by
        simp [jsonJoinPairs]; omega
      rw [hshape, jsonParsePairs_succ, jsonParsePair_encode p _]
      dsimp only
      rw [if_pos rfl]
      rw [ih (p :: acc) rest f (by simp) (by rw [hlen] at hfuel; omega)]
      simp

theorem jsonParseObj_cons (c : Char) (r1 : List Char) :
    jsonParseObj (c :: r1) =
      (if c = '{' then
        match r1 with
        | [] => none
        | c2 :: _ =>
          if c2 = '}' then some ([], r1.tail) else jsonParsePairs r1.length [] r1
      else none) := rfl

theorem jsonParseObj_encode (o : List (List Char × List Char)) (ho : o ≠ [])
    (rest : List Char) :
    jsonParseObj (jsonObjChars o ++ rest) = some (o, rest) := by
  cases o with
  | nil => exact absurd rfl ho
  | cons p ps =>
    have hshape : jsonObjChars (p :: ps) ++ rest =
        '{' :: (jsonJoinPairs (p :: ps) ++ '}' :: rest) := by
      simp [jsonObjChars]
    obtain ⟨t, ht⟩ : ∃ t, jsonJoinPairs (p :: ps) = '"' :: t := by
      cases ps with
      | nil => exact ⟨_, rfl⟩
      | cons q qs => exact ⟨_, rfl⟩
    rw [hshape, jsonParseObj_cons, if_pos rfl, ht, List.cons_append]
    dsimp only
    rw [if_neg (by decide)]
    rw [show ('"' : Char) :: (t ++ '}' :: rest) = jsonJoinPairs (p :: ps) ++ '}' :: rest from by
      rw [ht, List.cons_append]]
    rw [jsonParsePairs_encode (p :: ps) [] rest _ (by simp)
      (by simp only [List.length_cons, List.length_append]; omega)]
    simp

theorem jsonParseElems_succ (fuel : Nat) (acc : List (List (List Char × List Char)))
    (cs : List Char) :
    jsonParseElems (fuel + 1) acc cs =
      (match jsonParseObj cs with
       | none => none
       | some ors =>
         match ors.2 with
         | [] => none
         | c :: r2 =>
           if c = ',' then jsonParseElems fuel (ors.1 :: acc) r2
           else if c = ']' then some ((ors.1 :: acc).reverse, r2)
           else none) := rfl

theorem jsonParseElems_encode :
    ∀ (os : List (List (List Char × List Char)))
      (acc : List (List (List Char × List Char))) (rest : List Char) (fuel : Nat),
      os ≠ [] → (∀ o ∈ os, o ≠ []) →
      (jsonJoinObjs os).length + 1 + rest.length ≤ fuel →
      jsonParseElems fuel acc (jsonJoinObjs os ++ ']' :: rest) =
        some (acc.reverse ++ os, rest) := by
  intro os
  induction os with
  | nil => intro acc rest fuel h; exact absurd rfl h
  | cons o os' ih =>
    intro acc rest fuel _ hne hfuel
    obtain ⟨f, rfl⟩ : ∃ f, fuel = f + 1 := ⟨fuel - 1, by omega⟩
    have hone : o ≠ [] := hne o (List.mem_cons_self o os')
    cases os' with
    | nil =>
      show jsonParseElems (f + 1) acc (jsonObjChars o ++ ']' :: rest) = _
      rw [jsonParseElems_succ, jsonParseObj_encode o hone (']' :: rest)]
      dsimp only
      rw [if_neg (by decide), if_pos rfl]
      simp
    | cons o2 os2 =>
      have hshape : jsonJoinObjs (o :: o2 :: os2) ++ ']' :: rest =
          jsonObjChars o ++ ',' :: (jsonJoinObjs (o2 :: os2) ++ ']' :: rest) := by
        simp [jsonJoinObjs]
      have hlen : (jsonJoinObjs (o :: o2 :: os2)).length =
          (jsonObjChars o).length + 1 + (jsonJoinObjs (o2 :: os2)).length := by
        simp [jsonJoinObjs]; omega
      rw [hshape, jsonParseElems_succ, jsonParseObj_encode o hone _]
      dsimp only
      rw [if_pos rfl]
      rw [ih (o :: acc) rest f (by simp) (fun x hx => hne x (List.mem_cons_of_mem _ hx))
        (by rw [hlen] at hfuel; omega)]
      simp

theorem jsonParseTop_cons (c : Char) (r1 : List Char) :
    jsonParseTop ⟨c :: r1⟩ =
      (if c = '[' then
        match r1 with
        | [] => none
        | c2 :: r2 =>
          if c2 = ']' then
            if r2.isEmpty then some [] else none
          else
            match jsonParseElems r1.length [] r1 with
            | none => none
            | some er =>
              if er.2.isEmpty then
                some (er.1.map fun o => o.map fun p => (String.mk p.1, String.mk p.2))
              else none
      else none) := rfl

theorem jsonParseTop_encode (objs : List (List (List Char × List Char)))
    (h : ∀ o ∈ objs, o ≠ []) :
    jsonParseTop ⟨jsonExportChars objs⟩ =
      some (objs.map fun o => o.map fun p => (String.mk p.1, String.mk p.2)) := by
  cases objs with
  | nil => decide
  | cons o os =>
    have hshape : jsonExportChars (o :: os) =
        '[' :: (jsonJoinObjs (o :: os) ++ ']' :: []) := by
      simp [jsonExportChars]
    obtain ⟨t, ht⟩ : ∃ t, jsonJoinObjs (o :: os) = '{' :: t := by
      cases os with
      | nil => exact ⟨_, rfl⟩
      | cons o2 os2 => exact ⟨_, rfl⟩
    rw [hshape, jsonParseTop_cons, if_pos rfl, ht, List.cons_append]
    dsimp only
    rw [if_neg (by decide)]
    rw [show ('{' : Char) :: (t ++ ']' :: []) = jsonJoinObjs (o :: os) ++ ']' :: [] from by
      rw [ht, List.cons_append]]
    rw [jsonParseElems_encode (o :: os) [] [] _ (by simp) h
      (by simp only [List.length_cons, List.length_append]; omega)]
    simp

/-! # Claim theorems -/

/-- **C5.** The pattern splitter: when the directory component of the
input (its `path.Dir`) is empty or the current-directory marker `"."`
— in particular whenever the input has no `'/'` — the result is
`(filePattern, dirPattern) = ("*" ++ basename ++ "*", "")`; otherwise
it is `(basename ++ "*", "*" ++ dir)`, the basename pattern's leading
wildcard having been stripped; and `split "lib/foo" = ("foo*", "*lib")`. -/
theorem getFileAndPath_spec (s : String) :
    (pathDir s = "" ∨ pathDir s = "." →
      getFileAndPath s = ("*" ++ pathBase s ++ "*", "")) ∧
    (¬(pathDir s = "" ∨ pathDir s = ".") →
      getFileAndPath s = (pathBase s ++ "*", "*" ++ pathDir s)) ∧
    (('/' : Char) ∉ s.data → pathDir s = ".") ∧
    getFileAndPath "lib/foo" = ("foo*", "*lib") := by
  refine ⟨?_, ?_, ?_, by decide⟩
  · intro h
    have hn : ¬(pathDir s ≠ "" ∧ pathDir s ≠ ".") := by tauto
    simp only [getFileAndPath]
    rw [if_neg hn]
  · intro h
    push_neg at h
    simp only [getFileAndPath]
    rw [if_pos h, goTrimPrefix_star]
  · intro h
    show (⟨cleanChars (dirPartChars s.data)⟩ : String) = "."
    have hd : dirPartChars s.data = [] := by
      simp only [dirPartChars]
      have : s.data.reverse.dropWhile (fun c => decide (c ≠ '/')) = [] := by
        rw [List.dropWhile_eq_nil_iff]
        intro x hx
        have hxs : x ∈ s.data := List.mem_reverse.mp hx
        simp only [decide_eq_true_eq]
        intro he
        exact h (he ▸ hxs)
      rw [this, List.reverse_nil]
    rw [hd]
    decide

/-- **C5 witness.** The splitter theorem applied to the concrete input
`"lib/foo"` of the spec's example. -/
theorem getFileAndPath_spec_witness : getFileAndPath "lib/foo" = ("foo*", "*lib") :=
  (getFileAndPath_spec "lib/foo").2.2.2

/-- **C9 counterexample.** The claim says the empty input degenerates
to `filePattern = "**"`; in the code `path.Base("")` is `"."`, so the
file pattern is `"*.*"`, not `"**"`. -/
theorem getFileAndPath_empty_ne : getFileAndPath "" ≠ ("**", "") := by decide

/-- **C9 amended.** The splitter is total — every string is accepted —
and on the empty string it returns `filePattern = "*.*"` (the
wildcard-wrapped current-directory marker produced by `path.Base("")`)
and `dirPattern = ""`. -/
theorem getFileAndPath_empty : getFileAndPath "" = ("*.*", "") := by decide

/-- **C4.** For a document whose table has a header row followed by
data rows of 5 cells each, the extractor skips exactly the header and
returns one record per data row, in row order, the 5 cells mapped
positionally to `path, pkg, branch, repo, arch`. -/
theorem getFilesInfo_spec (header : HtmlRow) (dataRows : List HtmlRow)
    (h5 : ∀ r ∈ dataRows, r.cells.length = 5) :
    (getFilesInfo ⟨header :: dataRows⟩).length = dataRows.length ∧
    ∀ (j : Nat) (r : HtmlRow), dataRows[j]? = some r →
      (getFilesInfo ⟨header :: dataRows⟩)[j]? =
        some ⟨r.cells.getD 0 "", r.cells.getD 1 "", r.cells.getD 2 "",
              r.cells.getD 3 "", r.cells.getD 4 ""⟩ := by
  constructor
  · simp [getFilesInfo]
  · intro j r hj
    have hmem : r ∈ dataRows := List.getElem?_mem hj
    show ((dataRows.map fun rr => rowToFileInfo rr.cells))[j]? = _
    rw [List.getElem?_map, hj]
    simp only [Option.map_some']
    rw [rowToFileInfo_of_length_five r.cells (h5 r hmem)]

/-- **C4 witness.** The spec's example: a header row plus 3 data rows
of 5 cells each yields a RecordSet of length 3. -/
theorem getFilesInfo_spec_witness :
    (getFilesInfo ⟨[⟨["f", "p", "b", "r", "a"]⟩,
        ⟨["f1", "p1", "b1", "r1", "a1"]⟩,
        ⟨["f2", "p2", "b2", "r2", "a2"]⟩,
        ⟨["f3", "p3", "b3", "r3", "a3"]⟩]⟩).length = 3 :=
  (getFilesInfo_spec ⟨["f", "p", "b", "r", "a"]⟩
    [⟨["f1", "p1", "b1", "r1", "a1"]⟩, ⟨["f2", "p2", "b2", "r2", "a2"]⟩,
     ⟨["f3", "p3", "b3", "r3", "a3"]⟩] (by decide)).1

/-- **C8.** The extractor is total and tolerant.  For every row, the
record's five fields are exactly the cells at positions 0–4 with `""`
as the default, so every row with fewer than 5 cells yields a record
whose fields at every position at or past its cell count — the
trailing unfilled fields — are the empty string; a long row maps only
cells 0–4 and merely records a warning for each later cell; and a
document with no data rows (or no rows at all) yields the empty list,
not an error. -/
theorem getFilesInfo_tolerant :
    (∀ cells : List String, rowToFileInfo cells =
      ⟨cells.getD 0 "", cells.getD 1 "", cells.getD 2 "",
       cells.getD 3 "", cells.getD 4 ""⟩) ∧
    (∀ (cells : List String) (i : Nat), cells.length ≤ i →
      fileInfoField (rowToFileInfo cells) i = "") ∧
    (∀ c0 : String, rowToFileInfo [c0] = ⟨c0, "", "", "", ""⟩) ∧
    (∀ c0 c1 c2 : String, rowToFileInfo [c0, c1, c2] = ⟨c0, c1, c2, "", ""⟩) ∧
    (∀ (c0 c1 c2 c3 c4 : String) (extras : List String),
      rowToFileInfo ([c0, c1, c2, c3, c4] ++ extras) = ⟨c0, c1, c2, c3, c4⟩ ∧
      rowWarnings ([c0, c1, c2, c3, c4] ++ extras) = extras.enumFrom 5 ∧
      rowWarnings [c0, c1, c2, c3, c4] = []) ∧
    rowToFileInfo [] = ⟨"", "", "", "", ""⟩ ∧
    getFilesInfo ⟨[]⟩ = [] ∧
    (∀ header, getFilesInfo ⟨[header]⟩ = []) := by
  refine ⟨rowToFileInfo_getD, ?_, fun c0 => rfl, fun c0 c1 c2 => rfl, ?_, rfl, rfl,
    fun header => rfl⟩
  · intro cells i hlen
    rw [rowToFileInfo_getD]
    rcases i with _ | (_ | (_ | (_ | (_ | m))))
    · exact getD_of_length_le "" cells 0 hlen
    · exact getD_of_length_le "" cells 1 hlen
    · exact getD_of_length_le "" cells 2 hlen
    · exact getD_of_length_le "" cells 3 hlen
    · exact getD_of_length_le "" cells 4 hlen
    · rfl
  · intro c0 c1 c2 c3 c4 extras
    refine ⟨rowToFileInfo_five c0 c1 c2 c3 c4 extras, ?_, rfl⟩
    show (extras.enumFrom 5).filter (fun p => decide (5 ≤ p.1)) = extras.enumFrom 5
    exact enumFrom_filter_high extras 5 (by omega)

/-- **C8 witness.** The universal short-row statements at concrete
rows of 2 and 4 cells: a two-cell row leaves branch, repo and arch
empty, and a four-cell row — one missing only the architecture cell —
has an empty field at position 4. -/
theorem getFilesInfo_tolerant_witness :
    rowToFileInfo ["p", "k"] = ⟨"p", "k", "", "", ""⟩ ∧
    fileInfoField (rowToFileInfo ["p", "k", "b", "r"]) 4 = "" :=
  ⟨(getFilesInfo_tolerant.1 ["p", "k"]).trans (by decide),
   getFilesInfo_tolerant.2.1 ["p", "k", "b", "r"] 4 (by decide)⟩

/-- **C3 (code bug).** The claim — and the spec — say `ascii`, `html`
and `markdown` all render a human-readable grid.  In the switch,
`"html"` invokes the `XLSX` (spreadsheet-bytes) exporter, `"ascii"`
has an empty case body so no exporter runs at all (`result` stays
nil), and only `"markdown"` reaches the grid-rendering `default:`
branch. -/
theorem tabularDispatch_html_ascii_markdown :
    tabularDispatch "html" "results" = ExportChoice.xlsxE ∧
    tabularDispatch "ascii" "results" = ExportChoice.nilE ∧
    tabularDispatch "markdown" "results" = ExportChoice.gridE := by decide

/-- **C1 counterexample.** The claim says an out-of-enumeration format
such as `"bogus"` fails with an `UnsupportedFormatError`; in the code
the switch has no error path — `"bogus"` reaches `default:` and the
ASCII grid is rendered and printed. -/
theorem tabularDispatch_bogus : tabularDispatch "bogus" "results" = ExportChoice.gridE := by
  decide

/-- **C1 amended.** Every format value outside the switch's case-label
set (so every unknown value, and also `"markdown"`) selects the
`default:` branch, which renders the ASCII grid; no format value makes
the export dispatch fail. -/
theorem tabularDispatch_unknown_grid (fmt basename : String)
    (h : fmt ∉ tabularCaseLabels) : tabularDispatch fmt basename = ExportChoice.gridE := by
  rw [tabularDispatch.eq_def]
  split <;> simp_all [tabularCaseLabels]

/-- **C1 witness.** The amended theorem at the concrete format
`"bogus"`. -/
theorem tabularDispatch_unknown_grid_witness :
    tabularDispatch "bogus" "results2" = ExportChoice.gridE :=
  tabularDispatch_unknown_grid "bogus" "results2" (by decide)

/-- **C10.** `readStdin` turns a read failure into the error's message
text, and the stdin branch of `p.Action` then uses that text (with a
trailing newline trimmed) as the search input — an `ok`, not an
error. -/
theorem readStdin_swallows_error (e cerr : String) (args : List String) :
    readStdin (Except.error e) = e ∧
    computeInput true true cerr (Except.error e) args =
      Except.ok (goTrimSuffix e "\n") :=
  ⟨rfl, rfl⟩

/-- **C6.** Round-trip of the dataset export: under the fixed column
header `file, package, branch, repository, architecture`, exporting
any RecordSet as csv (or tsv) and parsing the dialect back, or
exporting it as json and parsing the object array back, recovers every
record's field values exactly. -/
theorem exportRoundTrip (files : List fileInfo) :
    datasetHeaders = ["file", "package", "branch", "repository", "architecture"] ∧
    svParse ',' (csvExport files) = datasetRows files ∧
    svParse '\t' (tsvExport files) = datasetRows files ∧
    jsonParseTop (jsonExport files) = some (files.map jsonRecord) := by
  have hne : ∀ r ∈ datasetRows files, r ≠ [] := by
    intro r hr
    rcases List.mem_cons.mp hr with rfl | hr2
    · simp [datasetHeaders]
    · obtain ⟨f, _, rfl⟩ := List.mem_map.mp hr2
      simp
  refine ⟨rfl, svParse_svEncode ',' (by decide) (by decide) _ hne,
    svParse_svEncode '\t' (by decide) (by decide) _ hne, ?_⟩
  have hobj : ∀ o ∈ files.map fun f => (jsonRecord f).map fun p => (p.1.data, p.2.data),
      o ≠ [] := by
    intro o ho
    obtain ⟨f, _, rfl⟩ := List.mem_map.mp ho
    simp [jsonRecord]
  have htop := jsonParseTop_encode _ hobj
  rw [show jsonExport files =
      (⟨jsonExportChars (files.map fun f => (jsonRecord f).map fun p => (p.1.data, p.2.data))⟩ :
        String) from rfl, htop]
  congr 1
  rw [List.map_map]
  apply List.map_congr_left
  intro f _
  show ((jsonRecord f).map fun p => (p.1.data, p.2.data)).map
      (fun p => (String.mk p.1, String.mk p.2)) = jsonRecord f
  rw [List.map_map]
  have hid : ((fun p : List Char × List Char => (String.mk p.1, String.mk p.2)) ∘
      fun p : String × String => (p.1.data, p.2.data)) = id := funext fun p => rfl
  rw [hid, List.map_id]

/-- **C7.** A non-empty branch, arch or repo value outside its fixed
enumeration makes `p.Before` fail with the message naming the value
and the joined allowed set, and the whole run then fails with that
message no matter what the fetch function would do — so no network
access can have happened.  (The earlier flag checks are assumed to
pass; when several flags are invalid the first failing check's message
wins, which is still a validation failure.) -/
theorem beforeCheck_rejects (w f b a r : String)
    (hw : w = "" ∨ stringInSlice w validWildcards = true)
    (hf : f = "" ∨ stringInSlice f validFilterTypes = true) :
    (b ≠ "" → stringInSlice b validBranches = false →
      beforeCheck w f b a r =
        .error (b ++ " is not a valid version, allowed: edge, v3.8, v3.7, v3.6, v3.5, v3.4, v3.3") ∧
      ∀ input fetch, programRun w f b a r input fetch =
        .error (b ++ " is not a valid version, allowed: edge, v3.8, v3.7, v3.6, v3.5, v3.4, v3.3")) ∧
    ((b = "" ∨ stringInSlice b validBranches = true) →
      a ≠ "" → stringInSlice a validArches = false →
      beforeCheck w f b a r =
        .error (a ++ " is not a valid arch, allowed: x86, x86_64, armhf, aarch64, ppc64le, s390x") ∧
      ∀ input fetch, programRun w f b a r input fetch =
        .error (a ++ " is not a valid arch, allowed: x86, x86_64, armhf, aarch64, ppc64le, s390x")) ∧
    ((b = "" ∨ stringInSlice b validBranches = true) →
      (a = "" ∨ stringInSlice a validArches = true) →
      r ≠ "" → stringInSlice r validRepos = false →
      beforeCheck w f b a r =
        .error (r ++ " is not a valid repo, allowed: main, community, testing") ∧
      ∀ input fetch, programRun w f b a r input fetch =
        .error (r ++ " is not a valid repo, allowed: main, community, testing")) := by
  have h1 : ¬(w ≠ "" ∧ stringInSlice w validWildcards = false) := by
    rcases hw with h | h <;> simp [h]
  have h2 : ¬(f ≠ "" ∧ stringInSlice f validFilterTypes = false) := by
    rcases hf with h | h <;> simp [h]
  have hjb : joinComma validBranches = "edge, v3.8, v3.7, v3.6, v3.5, v3.4, v3.3" := by decide
  have hja : joinComma validArches = "x86, x86_64, armhf, aarch64, ppc64le, s390x" := by decide
  have hjr : joinComma validRepos = "main, community, testing" := by decide
  refine ⟨?_, ?_, ?_⟩
  · intro hb hbv
    have hbc : beforeCheck w f b a r =
        .error (b ++ " is not a valid version, allowed: edge, v3.8, v3.7, v3.6, v3.5, v3.4, v3.3") := by
      rw [beforeCheck, if_neg h1, if_neg h2, if_pos ⟨hb, hbv⟩, hjb, String.append_assoc]
      rw [show (" is not a valid version, allowed: " : String) ++
            "edge, v3.8, v3.7, v3.6, v3.5, v3.4, v3.3" =
          " is not a valid version, allowed: edge, v3.8, v3.7, v3.6, v3.5, v3.4, v3.3" from by decide]
    exact ⟨hbc, fun input fetch => by rw [programRun, hbc]⟩
  · intro hbp ha hav
    have h3 : ¬(b ≠ "" ∧ stringInSlice b validBranches = false) := by
      rcases hbp with h | h <;> simp [h]
    have hbc : beforeCheck w f b a r =
        .error (a ++ " is not a valid arch, allowed: x86, x86_64, armhf, aarch64, ppc64le, s390x") := by
      rw [beforeCheck, if_neg h1, if_neg h2, if_neg h3, if_pos ⟨ha, hav⟩, hja,
        String.append_assoc]
      rw [show (" is not a valid arch, allowed: " : String) ++
            "x86, x86_64, armhf, aarch64, ppc64le, s390x" =
          " is not a valid arch, allowed: x86, x86_64, armhf, aarch64, ppc64le, s390x" from by decide]
    exact ⟨hbc, fun input fetch => by rw [programRun, hbc]⟩
  · intro hbp hap hr hrv
    have h3 : ¬(b ≠ "" ∧ stringInSlice b validBranches = false) := by
      rcases hbp with h | h <;> simp [h]
    have h4 : ¬(a ≠ "" ∧ stringInSlice a validArches = false) := by
      rcases hap with h | h <;> simp [h]
    have hbc : beforeCheck w f b a r =
        .error (r ++ " is not a valid repo, allowed: main, community, testing") := by
      rw [beforeCheck, if_neg h1, if_neg h2, if_neg h3, if_neg h4, if_pos ⟨hr, hrv⟩, hjr,
        String.append_assoc]
      rw [show (" is not a valid repo, allowed: " : String) ++ "main, community, testing" =
          " is not a valid repo, allowed: main, community, testing" from by decide]
    exact ⟨hbc, fun input fetch => by rw [programRun, hbc]⟩

/-- **C7 witness.** Branch `"v9.9"` (with otherwise valid defaults) is
rejected before any fetch, with the message naming `"v9.9"` and the
valid branch set. -/
theorem beforeCheck_rejects_witness :
    beforeCheck "" "" "v9.9" "x86_64" "main" =
      .error "v9.9 is not a valid version, allowed: edge, v3.8, v3.7, v3.6, v3.5, v3.4, v3.3" :=
  (((beforeCheck_rejects "" "" "v9.9" "x86_64" "main" (Or.inl rfl) (Or.inl rfl)).1)
    (by decide) (by decide)).1

/-- **C2 counterexample.** The claim fixes the key order of the
encoded query as `file, path, branch, repo, arch`; `url.Values.Encode`
sorts the keys, so the concrete query for file `"a"`, path `"b"`,
branch `"edge"`, repo `"main"`, arch `"x86"` comes out
`arch, branch, file, path, repo` — not in the claimed order. -/
theorem valuesEncode_order_counterexample :
    valuesEncode (searchQuery "a" "b" "edge" "main" "x86") =
        "arch=x86&branch=edge&file=a&path=b&repo=main" ∧
    valuesEncode (searchQuery "a" "b" "edge" "main" "x86") ≠
        "file=a&path=b&branch=edge&repo=main&arch=x86" := by decide

theorem intercalate_five (s x1 x2 x3 x4 x5 : String) :
    String.intercalate s [x1, x2, x3, x4, x5] =
      x1 ++ s ++ x2 ++ s ++ x3 ++ s ++ x4 ++ s ++ x5 := rfl

/-- **C2 amended.** For all inputs the encoded query string lists the
keys in sorted (alphabetical byte) order `arch, branch, file, path,
repo` — not the claimed `file, path, branch, repo, arch` — with each
value percent-encoded by `QueryEscape`; being a pure function of the
inputs, the serialization is reproducible. -/
theorem valuesEncode_searchQuery (f p b r a : String) :
    valuesEncode (searchQuery f p b r a) =
      "arch=" ++ queryEscape a ++ "&" ++ "branch=" ++ queryEscape b ++ "&" ++
      "file=" ++ queryEscape f ++ "&" ++ "path=" ++ queryEscape p ++ "&" ++
      "repo=" ++ queryEscape r := by
  have step1 : valuesEncode (searchQuery f p b r a) =
      String.intercalate "&"
        [queryEscape "arch" ++ "=" ++ queryEscape a,
         queryEscape "branch" ++ "=" ++ queryEscape b,
         queryEscape "file" ++ "=" ++ queryEscape f,
         queryEscape "path" ++ "=" ++ queryEscape p,
         queryEscape "repo" ++ "=" ++ queryEscape r] := rfl
  rw [step1, intercalate_five]
  rw [show queryEscape "arch" = "arch" from by decide,
      show queryEscape "branch" = "branch" from by decide,
      show queryEscape "file" = "file" from by decide,
      show queryEscape "path" = "path" from by decide,
      show queryEscape "repo" = "repo" from by decide]
  rw [show ("arch" : String) ++ "=" = "arch=" from by decide,
      show ("branch" : String) ++ "=" = "branch=" from by decide,
      show ("file" : String) ++ "=" = "file=" from by decide,
      show ("path" : String) ++ "=" = "path=" from by decide,
      show ("repo" : String) ++ "=" = "repo=" from by decide]
  apply String.ext
  simp only [String.data_append, List.append_assoc]

end ApkFile
